import Mathlib

/-!
Verification of the EdgeFirst schemas CDR codec.

The repository ships a C API (`include/edgefirst/schemas.h`) over a CDR
serialization engine.  The engine itself is not part of the C sources, so
the codec below is modelled from the specification: a schema-driven
field-walk over a little-endian plain-CDR wire format with a 4-byte
encapsulation header, natural alignment relative to the payload start,
length-prefixed NUL-terminated strings, count-prefixed sequences and
raw fixed arrays.  Buffers are byte lists (each byte a `Nat < 256`).
-/

/-- Little-endian byte encoding of `v` on `n` bytes. -/
def leBytes : Nat → Nat → List Nat
  | 0, _ => []
  | n + 1, v => v % 256 :: leBytes n (v / 256)

/-- Little-endian value of a byte list. -/
def leVal : List Nat → Nat
  | [] => 0
  | b :: bs => b + 256 * leVal bs

/-- Number of padding bytes needed to advance cursor `c` to a multiple of `a`. -/
def alignPad (c a : Nat) : Nat := (a - c % a) % a

/-- Is `b` a UTF-8 continuation byte (0x80..0xBF)? -/
def isCont (b : Nat) : Bool := 0x80 ≤ b && b ≤ 0xBF

/-- UTF-8 validity of a byte list, per the standard table: rejects
overlong encodings, surrogates and values above U+10FFFF. -/
def validUtf8 : List Nat → Bool
  | [] => true
  | b :: rest =>
    if b ≤ 0x7F then validUtf8 rest
    else if 0xC2 ≤ b && b ≤ 0xDF then
      match rest with
      | b1 :: rest1 => isCont b1 && validUtf8 rest1
      | [] => false
    else if b == 0xE0 then
      match rest with
      | b1 :: b2 :: rest2 => (0xA0 ≤ b1 && b1 ≤ 0xBF) && isCont b2 && validUtf8 rest2
      | _ => false
    else if (0xE1 ≤ b && b ≤ 0xEC) || b == 0xEE || b == 0xEF then
      match rest with
      | b1 :: b2 :: rest2 => isCont b1 && isCont b2 && validUtf8 rest2
      | _ => false
    else if b == 0xED then
      match rest with
      | b1 :: b2 :: rest2 => (0x80 ≤ b1 && b1 ≤ 0x9F) && isCont b2 && validUtf8 rest2
      | _ => false
    else if b == 0xF0 then
      match rest with
      | b1 :: b2 :: b3 :: rest3 =>
          (0x90 ≤ b1 && b1 ≤ 0xBF) && isCont b2 && isCont b3 && validUtf8 rest3
      | _ => false
    else if 0xF1 ≤ b && b ≤ 0xF3 then
      match rest with
      | b1 :: b2 :: b3 :: rest3 => isCont b1 && isCont b2 && isCont b3 && validUtf8 rest3
      | _ => false
    else if b == 0xF4 then
      match rest with
      | b1 :: b2 :: b3 :: rest3 =>
          (0x80 ≤ b1 && b1 ≤ 0x8F) && isCont b2 && isCont b3 && validUtf8 rest3
      | _ => false
    else false

/-- Schema field types: fixed-size primitives (integers, floats as raw
bit patterns, booleans) of `n` bytes, UTF-8 strings, nested messages
given by their field list, dynamic sequences and fixed arrays. -/
inductive FType where
  | prim (n : Nat)
  | str
  | nested (fs : List FType)
  | seq (t : FType)
  | arr (cnt : Nat) (t : FType)
deriving Repr

/-- In-memory message values: a primitive holds its unsigned bit
pattern, a string its content bytes, a message its field values. -/
inductive Value where
  | prim (v : Nat)
  | str (s : List Nat)
  | msg (vs : List Value)
  | seq (es : List Value)
  | arr (es : List Value)
deriving Repr

/-- Bytes emitted for a primitive of `n` bytes at cursor `c`: alignment
padding (zero bytes) followed by the little-endian encoding. -/
def encPrim (c n v : Nat) : List Nat :=
  List.replicate (alignPad c n) 0 ++ leBytes n v

mutual

/-- Modelled from the spec: the CDR field-walk writer (§4.1–§4.4).
Returns the bytes appended for one field starting at payload cursor `c`.
The Rust implementation behind `schemas.h` is not in the C sources. -/
def encodeField : FType → Value → Nat → List Nat
  | .prim n, .prim v, c => encPrim c n v
  | .str, .str s, c => encPrim c 4 (s.length + 1) ++ (s ++ [0])
  | .nested fs, .msg vs, c => encodeFields fs vs c
  | .seq t, .seq es, c =>
      let cntB := encPrim c 4 es.length
      cntB ++ encodeElems t es (c + cntB.length)
  | .arr _ t, .arr es, c => encodeElems t es c
  | _, _, _ => []
termination_by t v _ => (sizeOf t, sizeOf v)

/-- Writer for a field list in declaration order. -/
def encodeFields : List FType → List Value → Nat → List Nat
  | f :: fs, v :: vs, c =>
      let b := encodeField f v c
      b ++ encodeFields fs vs (c + b.length)
  | _, _, _ => []
termination_by fs vs _ => (sizeOf fs, sizeOf vs)

/-- Writer for sequence/array elements back to back. -/
def encodeElems : FType → List Value → Nat → List Nat
  | t, e :: es, c =>
      let b := encodeField t e c
      b ++ encodeElems t es (c + b.length)
  | _, [], _ => []
termination_by t es _ => (sizeOf t, sizeOf es)

end

mutual

/-- Modelled from the spec: the measure-only pass of the dual-mode
serializer (§4.6) — the byte count a field contributes at cursor `c`,
computed without producing bytes. -/
def sizeField : FType → Value → Nat → Nat
  | .prim n, .prim _, c => alignPad c n + n
  | .str, .str s, c => alignPad c 4 + 4 + (s.length + 1)
  | .nested fs, .msg vs, c => sizeFields fs vs c
  | .seq t, .seq es, c =>
      let k := alignPad c 4 + 4
      k + sizeElems t es (c + k)
  | .arr _ t, .arr es, c => sizeElems t es c
  | _, _, _ => 0
termination_by t v _ => (sizeOf t, sizeOf v)

/-- Measure pass over a field list. -/
def sizeFields : List FType → List Value → Nat → Nat
  | f :: fs, v :: vs, c =>
      let k := sizeField f v c
      k + sizeFields fs vs (c + k)
  | _, _, _ => 0
termination_by fs vs _ => (sizeOf fs, sizeOf vs)

/-- Measure pass over sequence/array elements. -/
def sizeElems : FType → List Value → Nat → Nat
  | t, e :: es, c =>
      let k := sizeField t e c
      k + sizeElems t es (c + k)
  | _, [], _ => 0
termination_by t es _ => (sizeOf t, sizeOf es)

end

/-- Read an `n`-byte primitive at cursor `c`: skip alignment padding,
check bounds, return the little-endian value and the new cursor. -/
def readPrim (B : List Nat) (c n : Nat) : Option (Nat × Nat) :=
  let c2 := c + alignPad c n
  if c2 + n ≤ B.length then some (leVal ((B.drop c2).take n), c2 + n) else none

mutual

/-- Modelled from the spec: the CDR field-walk reader (§4.1–§4.4),
mirroring `encodeField`; `none` is the malformed-data condition. -/
def decodeField : FType → List Nat → Nat → Option (Value × Nat)
  | .prim n, B, c => (readPrim B c n).map (fun p => (Value.prim p.1, p.2))
  | .str, B, c =>
      match readPrim B c 4 with
      | none => none
      | some (L, c1) =>
        if L = 0 then none
        else if c1 + L ≤ B.length then
          let bytes := (B.drop c1).take L
          if bytes.getLast? = some 0 && validUtf8 (bytes.take (L - 1)) then
            some (Value.str (bytes.take (L - 1)), c1 + L)
          else none
        else none
  | .nested fs, B, c => (decodeFields fs B c).map (fun p => (Value.msg p.1, p.2))
  | .seq t, B, c =>
      match readPrim B c 4 with
      | none => none
      | some (cnt, c1) =>
        match decodeElems t cnt B c1 with
        | none => none
        | some (es, c2) => some (Value.seq es, c2)
  | .arr cnt t, B, c => (decodeElems t cnt B c).map (fun p => (Value.arr p.1, p.2))
termination_by t _ _ => (sizeOf t, 0)

/-- Reader for a field list in declaration order. -/
def decodeFields : List FType → List Nat → Nat → Option (List Value × Nat)
  | [], _, c => some ([], c)
  | f :: fs, B, c =>
      match decodeField f B c with
      | none => none
      | some (v, c1) =>
        match decodeFields fs B c1 with
        | none => none
        | some (vs, c2) => some (v :: vs, c2)
termination_by fs _ _ => (sizeOf fs, 0)

/-- Reader for `k` sequence/array elements. -/
def decodeElems : FType → Nat → List Nat → Nat → Option (List Value × Nat)
  | _, 0, _, c => some ([], c)
  | t, k + 1, B, c =>
      match decodeField t B c with
      | none => none
      | some (e, c1) =>
        match decodeElems t k B c1 with
        | none => none
        | some (es, c2) => some (e :: es, c2)
termination_by t k _ _ => (sizeOf t, k + 1)

end

/-- POSIX errno values used by the C API for codec failures. -/
inductive Err where
  | EINVAL | EBADMSG | ENOBUFS
deriving Repr, DecidableEq

/-- The 4-byte encapsulation header written on every top-level message:
representation identifier 0x00 0x01 (little-endian plain CDR) and
options 0x0000. -/
def encapHeader : List Nat := [0x00, 0x01, 0x00, 0x00]

/-- Does the buffer begin with the recognized encapsulation header? -/
def reprIdOk (B : List Nat) : Bool := B.take 4 == encapHeader

/-- Modelled from the spec: the owned-buffer serializer (§4.5) —
encapsulation header followed by the field-walk of the message at
payload cursor 0.  The Rust implementation is not in the C sources. -/
def serializeMsg (fs : List FType) (vs : List Value) : List Nat :=
  encapHeader ++ encodeFields fs vs 0

/-- Modelled from the spec: the deserializer (§4.5).  `none` stands for
a NULL `bytes` pointer; EINVAL on null/empty input, EBADMSG on short or
unrecognized headers and on any field-walk failure. -/
def deserializeMsg (fs : List FType) (bytes : Option (List Nat)) :
    Except Err (List Value) :=
  match bytes with
  | none => .error .EINVAL
  | some B =>
    if B.length = 0 then .error .EINVAL
    else if B.length < 4 then .error .EBADMSG
    else if reprIdOk B then
      match decodeFields fs (B.drop 4) 0 with
      | some (vs, _) => .ok vs
      | none => .error .EBADMSG
    else .error .EBADMSG

/-- Outcome of the dual-mode (query/write) serializer: C return value,
errno (if set), the caller buffer contents after the call, and the
value stored through the size output parameter. -/
structure SizedOut where
  ret : Int
  err : Option Err
  buffer : Option (List Nat)
  size : Nat
deriving Repr

/-- Modelled from the spec: the dual-mode serializer (§4.6), e.g.
`foxglove_compressed_video_serialize`.  A `none` buffer is the size
query; the required size is computed by the measure-only pass and is
always stored through the size output; a too-small buffer fails with
ENOBUFS and is left unwritten. -/
def serializeSized (fs : List FType) (vs : List Value)
    (buf : Option (List Nat)) : SizedOut :=
  let required := 4 + sizeFields fs vs 0
  match buf with
  | none => { ret := 0, err := none, buffer := none, size := required }
  | some b =>
    if b.length < required then
      { ret := -1, err := some .ENOBUFS, buffer := some b, size := required }
    else
      { ret := 0, err := none,
        buffer := some (serializeMsg fs vs ++ b.drop required), size := required }

mutual

/-- A value is valid for a field type: primitive bit patterns fit their
width, strings are valid UTF-8 with a length field that fits a u32,
sequence counts fit a u32, arrays have exactly the schema length, and
nested messages are field-wise valid. -/
inductive Valid : FType → Value → Prop where
  | prim {n v : Nat} : 0 < n → v < 256 ^ n → Valid (.prim n) (.prim v)
  | str {s : List Nat} : (∀ b ∈ s, b < 256) → validUtf8 s = true →
      s.length + 1 < 2 ^ 32 → Valid .str (.str s)
  | msg {fs vs} : ValidFields fs vs → Valid (.nested fs) (.msg vs)
  | seq {t es} : es.length < 2 ^ 32 → ValidElems t es → Valid (.seq t) (.seq es)
  | arr {cnt t es} : es.length = cnt → ValidElems t es → Valid (.arr cnt t) (.arr es)

/-- Field-wise validity of a message against its field list. -/
inductive ValidFields : List FType → List Value → Prop where
  | nil : ValidFields [] []
  | cons {f v fs vs} : Valid f v → ValidFields fs vs →
      ValidFields (f :: fs) (v :: vs)

/-- Element-wise validity of sequence/array contents. -/
inductive ValidElems : FType → List Value → Prop where
  | nil {t} : ValidElems t []
  | cons {t e es} : Valid t e → ValidElems t es → ValidElems t (e :: es)

end

/-- builtin_interfaces/Time: sec (int32) then nanosec (uint32). -/
def timeFields : List FType := [.prim 4, .prim 4]

/-- In-memory Time; integer fields carried as 32-bit patterns
(two's complement for the signed `sec`). -/
structure RosTime where
  sec : Nat
  nanosec : Nat
deriving Repr, DecidableEq

/-- Field values of a Time in declaration order. -/
def RosTime.toValues (t : RosTime) : List Value := [.prim t.sec, .prim t.nanosec]

/-- Modelled from the spec: `ros_time_new` constructs the zero value. -/
def ros_time_new : RosTime := ⟨0, 0⟩

/-- Modelled from the spec: `ros_time_serialize` (owned-buffer form). -/
def ros_time_serialize (t : RosTime) : List Nat :=
  serializeMsg timeFields t.toValues

/-- Modelled from the spec: `ros_time_deserialize`; `none` is a NULL
`bytes` pointer, errors are the errno the C API sets. -/
def ros_time_deserialize (bytes : Option (List Nat)) : Except Err RosTime :=
  match deserializeMsg timeFields bytes with
  | .ok [Value.prim s, Value.prim ns] => .ok ⟨s, ns⟩
  | .ok _ => .error .EBADMSG
  | .error e => .error e

/-- std_msgs/Header: stamp (nested Time) then frame_id (string). -/
def headerFields : List FType := [.nested timeFields, .str]

/-- In-memory Header; `frame_id` is the UTF-8 byte content. -/
structure RosHeader where
  stamp : RosTime
  frame_id : List Nat
deriving Repr, DecidableEq

/-- Field values of a Header in declaration order. -/
def RosHeader.toValues (h : RosHeader) : List Value :=
  [.msg h.stamp.toValues, .str h.frame_id]

/-- Modelled from the spec: `ros_header_new` — zero stamp, empty frame_id. -/
def ros_header_new : RosHeader := ⟨ros_time_new, []⟩

/-- Modelled from the spec: `ros_header_serialize` (owned-buffer form). -/
def ros_header_serialize (h : RosHeader) : List Nat :=
  serializeMsg headerFields h.toValues

/-- Modelled from the spec: `ros_header_deserialize`. -/
def ros_header_deserialize (bytes : Option (List Nat)) : Except Err RosHeader :=
  match deserializeMsg headerFields bytes with
  | .ok [Value.msg [Value.prim s, Value.prim ns], Value.str f] =>
      .ok ⟨⟨s, ns⟩, f⟩
  | .ok _ => .error .EBADMSG
  | .error e => .error e

/-- std_msgs/ColorRGBA: four float32 fields r, g, b, a (bit patterns). -/
def colorRGBAFields : List FType := [.prim 4, .prim 4, .prim 4, .prim 4]

/-- In-memory ColorRGBA; float fields carried as IEEE-754 bit patterns. -/
structure RosColorRGBA where
  r : Nat
  g : Nat
  b : Nat
  a : Nat
deriving Repr, DecidableEq

/-- Modelled from the spec and `test_std_msgs.c` (`colorrgba_create_zero`):
`ros_color_rgba_new` defaults to r = g = b = 0.0 and a = 1.0 (fully
opaque); 0x3F800000 is the IEEE-754 single bit pattern of 1.0. -/
def ros_color_rgba_new : RosColorRGBA := ⟨0, 0, 0, 0x3F800000⟩

/-- sensor_msgs/PointField: name (string), offset (uint32),
datatype (uint8), count (uint32). -/
def pointFieldFields : List FType := [.str, .prim 4, .prim 1, .prim 4]

/-- In-memory PointField. -/
structure RosPointField where
  name : List Nat
  offset : Nat
  datatype : Nat
  count : Nat
deriving Repr, DecidableEq

/-- Modelled from the spec and `test_sensor_msgs.c`
(`pointfield_create_and_destroy`): `ros_point_field_new` defaults to an
empty name, offset 0, datatype 0 and count 1 (ROS2 default: one element
per field). -/
def ros_point_field_new : RosPointField := ⟨[], 0, 0, 1⟩

/-- In-memory sensor_msgs/NavSatStatus; `status` is carried as the
signed integer the C getter returns (int8), `service` as a uint16. -/
structure RosNavSatStatus where
  status : Int
  service : Nat
deriving Repr, DecidableEq

/-- Modelled from the spec and `test_sensor_msgs.c`
(`navsatstatus_create_and_destroy`): `ros_nav_sat_status_new` defaults
to status = ROS_NAV_SAT_STATUS_STATUS_NO_FIX (-1, no GPS fix) and
service = 0. -/
def ros_nav_sat_status_new : RosNavSatStatus := ⟨-1, 0⟩

/-- foxglove_msgs/CompressedVideo as exposed by the C API: header
(nested Header), data (uint8 sequence), format (string). -/
def compressedVideoFields : List FType := [.nested headerFields, .seq (.prim 1), .str]

/-- In-memory CompressedVideo. -/
structure FoxgloveCompressedVideo where
  header : RosHeader
  data : List Nat
  format : List Nat
deriving Repr, DecidableEq

/-- Field values of a CompressedVideo in declaration order. -/
def FoxgloveCompressedVideo.toValues (v : FoxgloveCompressedVideo) : List Value :=
  [.msg v.header.toValues, .seq (v.data.map Value.prim), .str v.format]

/-- Modelled from the spec: `foxglove_compressed_video_new` — empty. -/
def foxglove_compressed_video_new : FoxgloveCompressedVideo :=
  ⟨ros_header_new, [], []⟩

/-- Modelled from the spec: `foxglove_compressed_video_serialize`, the
dual-mode (query/write) serializer of §4.6. -/
def foxglove_compressed_video_serialize (v : FoxgloveCompressedVideo)
    (buf : Option (List Nat)) : SizedOut :=
  serializeSized compressedVideoFields v.toValues buf

/-- Length of a little-endian encoding. -/
theorem leBytes_length (n v : Nat) : (leBytes n v).length = n := by
  induction n generalizing v with
  | zero => rfl
  | succ n ih => simp [leBytes, ih]

/-- Reading back a little-endian encoding recovers the value. -/
theorem leVal_leBytes {n v : Nat} (h : v < 256 ^ n) : leVal (leBytes n v) = v := by
  induction n generalizing v with
  | zero =>
      have : v = 0 := by simpa using h
      simp [this, leBytes, leVal]
  | succ n ih =>
      have h2 : v / 256 < 256 ^ n := by
        rw [pow_succ, Nat.mul_comm] at h
        exact Nat.div_lt_of_lt_mul h
      simp [leBytes, leVal, ih h2]
      omega

/-- Length of an emitted primitive: padding plus width. -/
theorem encPrim_length (c n v : Nat) :
    (encPrim c n v).length = alignPad c n + n := by
  simp [encPrim, leBytes_length]

/-- Reading a primitive back at the position it was written. -/
theorem readPrim_encPrim {v n : Nat} (pre rest : List Nat) (hv : v < 256 ^ n) :
    readPrim (pre ++ (encPrim pre.length n v ++ rest)) pre.length n =
      some (v, pre.length + alignPad pre.length n + n) := by
  have hassoc :
      pre ++ (encPrim pre.length n v ++ rest) =
        (pre ++ List.replicate (alignPad pre.length n) 0) ++ (leBytes n v ++ rest) := by
    simp [encPrim]
  have hlen1 : (pre ++ List.replicate (alignPad pre.length n) 0).length =
      pre.length + alignPad pre.length n := by simp
  unfold readPrim
  rw [hassoc]
  have hguard : pre.length + alignPad pre.length n + n ≤
      ((pre ++ List.replicate (alignPad pre.length n) 0) ++ (leBytes n v ++ rest)).length := by
    simp [leBytes_length]
    omega
  rw [if_pos hguard]
  rw [List.drop_left' hlen1, List.take_left' (leBytes_length n v)]
  rw [leVal_leBytes hv]

/-- Slicing a buffer at the position and length of a middle segment
returns that segment. -/
theorem drop_take_exact {B pre mid rest : List Nat} {c L : Nat}
    (hB : B = pre ++ (mid ++ rest)) (hc : c = pre.length) (hL : L = mid.length) :
    (B.drop c).take L = mid := by
  subst hB hc hL
  rw [List.drop_left, List.take_left]

mutual

/-- Decoding reads back exactly what the writer emitted for one valid
field, at any buffer position and with arbitrary trailing bytes. -/
theorem rt_field {t : FType} {v : Value} (h : Valid t v) (pre rest : List Nat) :
    decodeField t (pre ++ (encodeField t v pre.length ++ rest)) pre.length =
      some (v, pre.length + (encodeField t v pre.length).length) := by
  cases h with
  | @prim n v0 hn hv =>
      simp only [encodeField, decodeField]
      rw [readPrim_encPrim pre rest hv]
      simp [encPrim_length, Nat.add_assoc]
  | @str s hb hu hl =>
      have hv : s.length + 1 < 256 ^ 4 := by
        have h4 : (256 : Nat) ^ 4 = 2 ^ 32 := by norm_num
        omega
      have e1 : encodeField .str (.str s) pre.length =
          encPrim pre.length 4 (s.length + 1) ++ (s ++ [0]) := by
        simp [encodeField]
      rw [e1]
      rw [show pre ++ ((encPrim pre.length 4 (s.length + 1) ++ (s ++ [0])) ++ rest) =
            pre ++ (encPrim pre.length 4 (s.length + 1) ++ ((s ++ [0]) ++ rest)) by
          simp [List.append_assoc]]
      simp only [decodeField]
      rw [readPrim_encPrim pre ((s ++ [0]) ++ rest) hv]
      simp only []
      have hL0 : ¬ (s.length + 1 = 0) := by omega
      rw [if_neg hL0]
      have hBlen : (pre ++ (encPrim pre.length 4 (s.length + 1) ++ ((s ++ [0]) ++ rest))).length =
          pre.length + (alignPad pre.length 4 + 4 + ((s.length + 1) + rest.length)) := by
        simp [encPrim_length]
        omega
      rw [if_pos (by rw [hBlen]; omega)]
      have hslice : ((pre ++ (encPrim pre.length 4 (s.length + 1) ++ ((s ++ [0]) ++ rest))).drop
            (pre.length + alignPad pre.length 4 + 4)).take (s.length + 1) = s ++ [0] := by
        refine @drop_take_exact _ (pre ++ encPrim pre.length 4 (s.length + 1))
          (s ++ [0]) rest _ _ ?_ ?_ ?_
        · simp [List.append_assoc]
        · simp [encPrim_length]
          omega
        · simp
      rw [hslice]
      have htake : (s ++ [0]).take (s.length + 1 - 1) = s := by
        simp
      rw [htake]
      simp [hu, encPrim_length]
      omega
  | @msg fs vs hf =>
      simp only [encodeField, decodeField]
      rw [rt_fields hf pre rest]
      simp
  | @seq t es hlen helems =>
      have hv : es.length < 256 ^ 4 := by
        have h4 : (256 : Nat) ^ 4 = 2 ^ 32 := by norm_num
        omega
      have e1 : encodeField (.seq t) (.seq es) pre.length =
          encPrim pre.length 4 es.length ++
            encodeElems t es (pre.length + (alignPad pre.length 4 + 4)) := by
        simp [encodeField, encPrim_length]
      rw [e1]
      rw [show pre ++ ((encPrim pre.length 4 es.length ++
              encodeElems t es (pre.length + (alignPad pre.length 4 + 4))) ++ rest) =
            pre ++ (encPrim pre.length 4 es.length ++
              (encodeElems t es (pre.length + (alignPad pre.length 4 + 4)) ++ rest)) by
          simp [List.append_assoc]]
      simp only [decodeField]
      rw [readPrim_encPrim pre
        (encodeElems t es (pre.length + (alignPad pre.length 4 + 4)) ++ rest) hv]
      simp only []
      have hp : (pre ++ encPrim pre.length 4 es.length).length =
          pre.length + (alignPad pre.length 4 + 4) := by
        simp [encPrim_length]
        try omega
      have h2 := rt_elems helems (pre ++ encPrim pre.length 4 es.length) rest
      rw [hp] at h2
      rw [List.append_assoc] at h2
      rw [show pre.length + alignPad pre.length 4 + 4 =
            pre.length + (alignPad pre.length 4 + 4) by omega]
      rw [h2]
      simp [encPrim_length]
      omega
  | @arr cnt t es hcnt helems =>
      have e1 : encodeField (.arr cnt t) (.arr es) pre.length =
          encodeElems t es pre.length := by
        simp [encodeField]
      rw [e1]
      simp only [decodeField]
      rw [← hcnt]
      rw [rt_elems helems pre rest]
      simp
termination_by (sizeOf t, sizeOf v)
decreasing_by all_goals (subst_vars; decreasing_tactic)

/-- Decoding reads back a valid field list exactly as written. -/
theorem rt_fields {fs : List FType} {vs : List Value} (h : ValidFields fs vs)
    (pre rest : List Nat) :
    decodeFields fs (pre ++ (encodeFields fs vs pre.length ++ rest)) pre.length =
      some (vs, pre.length + (encodeFields fs vs pre.length).length) := by
  cases h with
  | nil => simp [encodeFields, decodeFields]
  | @cons f v fs vs hv hrest =>
      have e1 : encodeFields (f :: fs) (v :: vs) pre.length =
          encodeField f v pre.length ++
            encodeFields fs vs (pre.length + (encodeField f v pre.length).length) := by
        simp [encodeFields]
      rw [e1]
      rw [show pre ++ ((encodeField f v pre.length ++
              encodeFields fs vs (pre.length + (encodeField f v pre.length).length)) ++ rest) =
            pre ++ (encodeField f v pre.length ++
              (encodeFields fs vs (pre.length + (encodeField f v pre.length).length) ++ rest)) by
          simp [List.append_assoc]]
      simp only [decodeFields]
      have h1 := rt_field hv pre
        (encodeFields fs vs (pre.length + (encodeField f v pre.length).length) ++ rest)
      rw [h1]
      simp only []
      have hp : (pre ++ encodeField f v pre.length).length =
          pre.length + (encodeField f v pre.length).length := by
        simp
      have h2 := rt_fields hrest (pre ++ encodeField f v pre.length) rest
      rw [hp] at h2
      rw [List.append_assoc] at h2
      rw [h2]
      simp only []
      simp
      omega
termination_by (sizeOf fs, sizeOf vs)
decreasing_by all_goals (subst_vars; decreasing_tactic)

/-- Decoding reads back valid sequence elements exactly as written. -/
theorem rt_elems {t : FType} {es : List Value} (h : ValidElems t es)
    (pre rest : List Nat) :
    decodeElems t es.length (pre ++ (encodeElems t es pre.length ++ rest)) pre.length =
      some (es, pre.length + (encodeElems t es pre.length).length) := by
  cases h with
  | nil => simp [encodeElems, decodeElems]
  | @cons _ e es hv hrest =>
      have e1 : encodeElems t (e :: es) pre.length =
          encodeField t e pre.length ++
            encodeElems t es (pre.length + (encodeField t e pre.length).length) := by
        simp [encodeElems]
      rw [e1]
      rw [show pre ++ ((encodeField t e pre.length ++
              encodeElems t es (pre.length + (encodeField t e pre.length).length)) ++ rest) =
            pre ++ (encodeField t e pre.length ++
              (encodeElems t es (pre.length + (encodeField t e pre.length).length) ++ rest)) by
          simp [List.append_assoc]]
      rw [show (e :: es).length = es.length + 1 by simp]
      simp only [decodeElems]
      have h1 := rt_field hv pre
        (encodeElems t es (pre.length + (encodeField t e pre.length).length) ++ rest)
      rw [h1]
      simp only []
      have hp : (pre ++ encodeField t e pre.length).length =
          pre.length + (encodeField t e pre.length).length := by
        simp
      have h2 := rt_elems hrest (pre ++ encodeField t e pre.length) rest
      rw [hp] at h2
      rw [List.append_assoc] at h2
      rw [h2]
      simp only []
      simp
      omega
termination_by (sizeOf t, sizeOf es)
decreasing_by all_goals (subst_vars; decreasing_tactic)

end

/-- The serialized form is the header followed by the payload. -/
theorem serializeMsg_eq (fs : List FType) (vs : List Value) :
    serializeMsg fs vs = encapHeader ++ encodeFields fs vs 0 := rfl

/-- Total length of a serialized message. -/
theorem serializeMsg_length (fs : List FType) (vs : List Value) :
    (serializeMsg fs vs).length = 4 + (encodeFields fs vs 0).length := by
  simp [serializeMsg, encapHeader]
  omega

/-- Decoding the payload of a full encoding consumes it exactly. -/
theorem decode_encode_payload {fs : List FType} {vs : List Value}
    (h : ValidFields fs vs) :
    decodeFields fs (encodeFields fs vs 0) 0 =
      some (vs, (encodeFields fs vs 0).length) := by
  have hrt := rt_fields h [] []
  simpa using hrt

/-- C1: round-trip.  For every schema (field list) and every valid
in-memory value, deserializing the serialized buffer yields the original
value exactly — covering nested messages, strings and sequences of any
length. -/
theorem claim_roundtrip (fs : List FType) (vs : List Value)
    (h : ValidFields fs vs) :
    deserializeMsg fs (some (serializeMsg fs vs)) = .ok vs := by
  have hlen : (serializeMsg fs vs).length = 4 + (encodeFields fs vs 0).length :=
    serializeMsg_length fs vs
  unfold deserializeMsg
  simp only []
  rw [if_neg (by omega), if_neg (by omega)]
  have hhdr : reprIdOk (serializeMsg fs vs) = true := by
    rw [serializeMsg_eq]
    simp [reprIdOk, List.take_left' (show encapHeader.length = 4 from rfl)]
  rw [if_pos hhdr]
  have hdrop : (serializeMsg fs vs).drop 4 = encodeFields fs vs 0 := by
    rw [serializeMsg_eq]
    exact List.drop_left' (show encapHeader.length = 4 from rfl)
  rw [hdrop, decode_encode_payload h]

/-- ValidFields witness for a concrete Header value with stamp 42/999 and
frame_id "camera" (bytes 99,97,109,101,114,97). -/
theorem validHeaderCamera :
    ValidFields headerFields
      [.msg [.prim 42, .prim 999], .str [99, 97, 109, 101, 114, 97]] := by
  refine ValidFields.cons (Valid.msg ?_) (ValidFields.cons (Valid.str ?_ ?_ ?_) ValidFields.nil)
  · exact ValidFields.cons (Valid.prim (by norm_num) (by norm_num))
      (ValidFields.cons (Valid.prim (by norm_num) (by norm_num)) ValidFields.nil)
  · decide
  · decide
  · norm_num

/-- Witness for C1: the Header round-trip at a concrete stamp and
frame_id "camera". -/
theorem claim_roundtrip_witness :
    deserializeMsg headerFields (some (serializeMsg headerFields
        [.msg [.prim 42, .prim 999], .str [99, 97, 109, 101, 114, 97]])) =
      .ok [.msg [.prim 42, .prim 999], .str [99, 97, 109, 101, 114, 97]] :=
  claim_roundtrip headerFields _ validHeaderCamera

/-- C9: determinism.  Two buffers produced by serializing the same
unmodified value have equal length and identical byte content (the
serializer is a pure function of the value). -/
theorem claim_serialize_deterministic (fs : List FType) (vs : List Value)
    (b1 b2 : List Nat) (h1 : b1 = serializeMsg fs vs) (h2 : b2 = serializeMsg fs vs) :
    b1.length = b2.length ∧ b1 = b2 := by
  subst h1
  subst h2
  exact ⟨rfl, rfl⟩

/-- Witness for C9 at a concrete Time value. -/
theorem claim_serialize_deterministic_witness :
    (serializeMsg timeFields [.prim 7, .prim 8]).length =
        (serializeMsg timeFields [.prim 7, .prim 8]).length ∧
      serializeMsg timeFields [.prim 7, .prim 8] =
        serializeMsg timeFields [.prim 7, .prim 8] :=
  claim_serialize_deterministic timeFields [.prim 7, .prim 8] _ _ rfl rfl

mutual

/-- The writer and the measure-only pass agree byte for byte in length,
for every field, every value and every cursor. -/
theorem encodeField_length (t : FType) (v : Value) (c : Nat) :
    (encodeField t v c).length = sizeField t v c := by
  cases t with
  | prim n => cases v <;> simp [encodeField, sizeField, encPrim_length]
  | str => cases v <;> simp [encodeField, sizeField, encPrim_length]
  | nested fs =>
      cases v with
      | prim x => simp [encodeField, sizeField]
      | str s => simp [encodeField, sizeField]
      | msg vs =>
          simp only [encodeField, sizeField]
          exact encodeFields_length fs vs c
      | seq es => simp [encodeField, sizeField]
      | arr es => simp [encodeField, sizeField]
  | seq t =>
      cases v with
      | prim x => simp [encodeField, sizeField]
      | str s => simp [encodeField, sizeField]
      | msg vs => simp [encodeField, sizeField]
      | seq es =>
          simp only [encodeField, sizeField, List.length_append, encPrim_length]
          rw [encodeElems_length t es (c + (alignPad c 4 + 4))]
      | arr es => simp [encodeField, sizeField]
  | arr cnt t =>
      cases v with
      | prim x => simp [encodeField, sizeField]
      | str s => simp [encodeField, sizeField]
      | msg vs => simp [encodeField, sizeField]
      | seq es => simp [encodeField, sizeField]
      | arr es =>
          simp only [encodeField, sizeField]
          exact encodeElems_length t es c
termination_by (sizeOf t, sizeOf v)
decreasing_by all_goals (subst_vars; decreasing_tactic)

/-- Writer/measure agreement over a field list. -/
theorem encodeFields_length (fs : List FType) (vs : List Value) (c : Nat) :
    (encodeFields fs vs c).length = sizeFields fs vs c := by
  cases fs with
  | nil => cases vs <;> simp [encodeFields, sizeFields]
  | cons f fs =>
      cases vs with
      | nil => simp [encodeFields, sizeFields]
      | cons v vs =>
          simp only [encodeFields, sizeFields, List.length_append]
          rw [encodeField_length f v c,
            encodeFields_length fs vs (c + sizeField f v c)]
termination_by (sizeOf fs, sizeOf vs)
decreasing_by all_goals (subst_vars; decreasing_tactic)

/-- Writer/measure agreement over sequence elements. -/
theorem encodeElems_length (t : FType) (es : List Value) (c : Nat) :
    (encodeElems t es c).length = sizeElems t es c := by
  cases es with
  | nil => simp [encodeElems, sizeElems]
  | cons e es =>
      simp only [encodeElems, sizeElems, List.length_append]
      rw [encodeField_length t e c, encodeElems_length t es (c + sizeField t e c)]
termination_by (sizeOf t, sizeOf es)
decreasing_by all_goals (subst_vars; decreasing_tactic)

end

/-- The size reported by the measure pass is the owned-buffer length. -/
theorem required_eq_length (fs : List FType) (vs : List Value) :
    4 + sizeFields fs vs 0 = (serializeMsg fs vs).length := by
  rw [serializeMsg_length, encodeFields_length]

/-- C2: query mode and write mode agree.  The size query (null buffer)
succeeds reporting S; writing into a buffer of capacity exactly S
succeeds and stores exactly the bytes of the owned-buffer serializer. -/
theorem claim_sized_query_write (fs : List FType) (vs : List Value)
    (b : List Nat) (hb : b.length = (serializeSized fs vs none).size) :
    (serializeSized fs vs none).ret = 0 ∧
      (serializeSized fs vs none).size = (serializeMsg fs vs).length ∧
      (serializeSized fs vs (some b)).ret = 0 ∧
      (serializeSized fs vs (some b)).buffer = some (serializeMsg fs vs) ∧
      (serializeSized fs vs (some b)).size = (serializeMsg fs vs).length := by
  have hreq : 4 + sizeFields fs vs 0 = (serializeMsg fs vs).length :=
    required_eq_length fs vs
  simp only [serializeSized] at hb ⊢
  rw [if_neg (by omega)]
  refine ⟨trivial, hreq, rfl, ?_, hreq⟩
  rw [show b.drop (4 + sizeFields fs vs 0) = [] from by
    rw [← hb]
    exact List.drop_length b]
  simp

/-- Witness for C2: the empty CompressedVideo written into a buffer of
exactly the queried size. -/
theorem claim_sized_query_write_witness :
    (List.replicate
          (foxglove_compressed_video_serialize foxglove_compressed_video_new none).size
          0).length =
        (serializeSized compressedVideoFields
            foxglove_compressed_video_new.toValues none).size ∧
      (serializeSized compressedVideoFields foxglove_compressed_video_new.toValues
          (some (List.replicate
            (foxglove_compressed_video_serialize foxglove_compressed_video_new none).size
            0))).ret = 0 := by
  have h := claim_sized_query_write compressedVideoFields
    foxglove_compressed_video_new.toValues
    (List.replicate
      (foxglove_compressed_video_serialize foxglove_compressed_video_new none).size 0)
    (by simp [foxglove_compressed_video_serialize])
  exact ⟨by simp [foxglove_compressed_video_serialize], h.2.2.1⟩

/-- C3: buffer too small.  With a non-null buffer of capacity strictly
below the required size, the sized serializer returns -1 with ENOBUFS,
still reports the true required size, and leaves the buffer untouched. -/
theorem claim_sized_too_small (fs : List FType) (vs : List Value)
    (b : List Nat) (hb : b.length < (serializeMsg fs vs).length) :
    (serializeSized fs vs (some b)).ret = -1 ∧
      (serializeSized fs vs (some b)).err = some .ENOBUFS ∧
      (serializeSized fs vs (some b)).size = (serializeMsg fs vs).length ∧
      (serializeSized fs vs (some b)).buffer = some b := by
  have hreq : 4 + sizeFields fs vs 0 = (serializeMsg fs vs).length :=
    required_eq_length fs vs
  simp only [serializeSized]
  rw [if_pos (by omega)]
  exact ⟨rfl, rfl, hreq, rfl⟩

/-- A successful primitive read stays within bounds and advances. -/
theorem readPrim_bound {B : List Nat} {c n x c2 : Nat}
    (h : readPrim B c n = some (x, c2)) : c ≤ c2 ∧ c2 ≤ B.length := by
  unfold readPrim at h
  by_cases hg : c + alignPad c n + n ≤ B.length
  · rw [if_pos hg] at h
    have : c2 = c + alignPad c n + n := by
      cases h
      rfl
    omega
  · rw [if_neg hg] at h
    cases h

/-- A successful primitive read is unaffected by appending bytes. -/
theorem readPrim_ext {B : List Nat} {c n x c2 : Nat} (ext : List Nat)
    (h : readPrim B c n = some (x, c2)) : readPrim (B ++ ext) c n = some (x, c2) := by
  unfold readPrim at h ⊢
  by_cases hg : c + alignPad c n + n ≤ B.length
  · rw [if_pos hg] at h
    rw [if_pos (by simp; omega)]
    rw [List.drop_append_of_le_length (by omega)]
    rw [List.take_append_of_le_length (by simp; omega)]
    exact h
  · rw [if_neg hg] at h
    cases h

mutual

/-- A successful field decode stays within the buffer and never moves
the cursor backwards. -/
theorem decodeField_bound {t : FType} {B : List Nat} {c : Nat} {v : Value}
    {c2 : Nat} (h : decodeField t B c = some (v, c2)) (hc : c ≤ B.length) :
    c ≤ c2 ∧ c2 ≤ B.length := by
  cases t with
  | prim n =>
      simp only [decodeField] at h
      rw [Option.map_eq_some'] at h
      obtain ⟨⟨x, c'⟩, hr, hf⟩ := h
      have : c2 = c' := by
        cases hf
        rfl
      subst this
      exact readPrim_bound hr
  | str =>
      simp only [decodeField] at h
      cases hr : readPrim B c 4 with
      | none => rw [hr] at h; cases h
      | some p =>
          obtain ⟨L, c1⟩ := p
          rw [hr] at h
          simp only [] at h
          by_cases hL : L = 0
          · rw [if_pos hL] at h; cases h
          · rw [if_neg hL] at h
            by_cases hg : c1 + L ≤ B.length
            · rw [if_pos hg] at h
              have hb := readPrim_bound hr
              by_cases hcond : (((B.drop c1).take L).getLast? = some 0 &&
                  validUtf8 (((B.drop c1).take L).take (L - 1))) = true
              · rw [if_pos hcond] at h
                have : c2 = c1 + L := by
                  cases h
                  rfl
                omega
              · rw [if_neg hcond] at h; cases h
            · rw [if_neg hg] at h; cases h
  | nested fs =>
      simp only [decodeField] at h
      rw [Option.map_eq_some'] at h
      obtain ⟨⟨ws, c'⟩, hr, hf⟩ := h
      have : c2 = c' := by
        cases hf
        rfl
      subst this
      exact decodeFields_bound hr hc
  | seq t =>
      simp only [decodeField] at h
      cases hr : readPrim B c 4 with
      | none => rw [hr] at h; cases h
      | some p =>
          obtain ⟨cnt, c1⟩ := p
          rw [hr] at h
          simp only [] at h
          cases he : decodeElems t cnt B c1 with
          | none => rw [he] at h; cases h
          | some q =>
              obtain ⟨es, c'⟩ := q
              rw [he] at h
              have hb := readPrim_bound hr
              have hb2 := decodeElems_bound he (by omega)
              have : c2 = c' := by
                cases h
                rfl
              omega
  | arr cnt t =>
      simp only [decodeField] at h
      rw [Option.map_eq_some'] at h
      obtain ⟨⟨es, c'⟩, hr, hf⟩ := h
      have : c2 = c' := by
        cases hf
        rfl
      subst this
      exact decodeElems_bound hr hc
termination_by (sizeOf t, 0)
decreasing_by all_goals (subst_vars; decreasing_tactic)

/-- A successful field-list decode stays within the buffer. -/
theorem decodeFields_bound {fs : List FType} {B : List Nat} {c : Nat}
    {vs : List Value} {c2 : Nat} (h : decodeFields fs B c = some (vs, c2))
    (hc : c ≤ B.length) : c ≤ c2 ∧ c2 ≤ B.length := by
  cases fs with
  | nil =>
      simp only [decodeFields] at h
      have : c2 = c := by
        cases h
        rfl
      omega
  | cons f fs =>
      simp only [decodeFields] at h
      cases hr : decodeField f B c with
      | none => rw [hr] at h; cases h
      | some p =>
          obtain ⟨v, c1⟩ := p
          rw [hr] at h
          simp only [] at h
          cases hs : decodeFields fs B c1 with
          | none => rw [hs] at h; cases h
          | some q =>
              obtain ⟨ws, c'⟩ := q
              rw [hs] at h
              have hb := decodeField_bound hr hc
              have hb2 := decodeFields_bound hs (by omega)
              have : c2 = c' := by
                cases h
                rfl
              omega
termination_by (sizeOf fs, 0)
decreasing_by all_goals (subst_vars; decreasing_tactic)

/-- A successful element decode stays within the buffer. -/
theorem decodeElems_bound {t : FType} {k : Nat} {B : List Nat} {c : Nat}
    {es : List Value} {c2 : Nat} (h : decodeElems t k B c = some (es, c2))
    (hc : c ≤ B.length) : c ≤ c2 ∧ c2 ≤ B.length := by
  cases k with
  | zero =>
      simp only [decodeElems] at h
      have : c2 = c := by
        cases h
        rfl
      omega
  | succ k =>
      simp only [decodeElems] at h
      cases hr : decodeField t B c with
      | none => rw [hr] at h; cases h
      | some p =>
          obtain ⟨e, c1⟩ := p
          rw [hr] at h
          simp only [] at h
          cases hs : decodeElems t k B c1 with
          | none => rw [hs] at h; cases h
          | some q =>
              obtain ⟨ws, c'⟩ := q
              rw [hs] at h
              have hb := decodeField_bound hr hc
              have hb2 := decodeElems_bound hs (by omega)
              have : c2 = c' := by
                cases h
                rfl
              omega
termination_by (sizeOf t, k + 1)
decreasing_by all_goals (subst_vars; decreasing_tactic)

end

mutual

/-- A successful field decode is unaffected by appending bytes. -/
theorem decodeField_ext {t : FType} {B : List Nat} {c : Nat} {v : Value}
    {c2 : Nat} (ext : List Nat) (h : decodeField t B c = some (v, c2)) :
    decodeField t (B ++ ext) c = some (v, c2) := by
  cases t with
  | prim n =>
      simp only [decodeField] at h ⊢
      rw [Option.map_eq_some'] at h
      obtain ⟨⟨x, c'⟩, hr, hf⟩ := h
      rw [readPrim_ext ext hr]
      simp only [Option.map_some']
      exact congrArg some hf
  | str =>
      simp only [decodeField] at h ⊢
      cases hr : readPrim B c 4 with
      | none => rw [hr] at h; cases h
      | some p =>
          obtain ⟨L, c1⟩ := p
          rw [hr] at h
          rw [readPrim_ext ext hr]
          simp only [] at h ⊢
          by_cases hL : L = 0
          · rw [if_pos hL] at h; cases h
          · rw [if_neg hL] at h ⊢
            by_cases hg : c1 + L ≤ B.length
            · rw [if_pos hg] at h
              rw [if_pos (by simp; omega)]
              have hc1 : c1 ≤ B.length := by
                have := readPrim_bound hr
                omega
              have hslice : ((B ++ ext).drop c1).take L = (B.drop c1).take L := by
                rw [List.drop_append_of_le_length hc1]
                rw [List.take_append_of_le_length (by simp; omega)]
              rw [hslice]
              exact h
            · rw [if_neg hg] at h; cases h
  | nested fs =>
      simp only [decodeField] at h ⊢
      rw [Option.map_eq_some'] at h
      obtain ⟨⟨ws, c'⟩, hr, hf⟩ := h
      rw [decodeFields_ext ext hr]
      simp only [Option.map_some']
      exact congrArg some hf
  | seq t =>
      simp only [decodeField] at h ⊢
      cases hr : readPrim B c 4 with
      | none => rw [hr] at h; cases h
      | some p =>
          obtain ⟨cnt, c1⟩ := p
          rw [hr] at h
          rw [readPrim_ext ext hr]
          simp only [] at h ⊢
          cases he : decodeElems t cnt B c1 with
          | none => rw [he] at h; cases h
          | some q =>
              obtain ⟨es, c'⟩ := q
              rw [he] at h
              rw [decodeElems_ext ext he]
              exact h
  | arr cnt t =>
      simp only [decodeField] at h ⊢
      rw [Option.map_eq_some'] at h
      obtain ⟨⟨es, c'⟩, hr, hf⟩ := h
      rw [decodeElems_ext ext hr]
      simp only [Option.map_some']
      exact congrArg some hf
termination_by (sizeOf t, 0)
decreasing_by all_goals (subst_vars; decreasing_tactic)

/-- A successful field-list decode is unaffected by appending bytes. -/
theorem decodeFields_ext {fs : List FType} {B : List Nat} {c : Nat}
    {vs : List Value} {c2 : Nat} (ext : List Nat)
    (h : decodeFields fs B c = some (vs, c2)) :
    decodeFields fs (B ++ ext) c = some (vs, c2) := by
  cases fs with
  | nil =>
      simp only [decodeFields] at h ⊢
      exact h
  | cons f fs =>
      simp only [decodeFields] at h ⊢
      cases hr : decodeField f B c with
      | none => rw [hr] at h; cases h
      | some p =>
          obtain ⟨v, c1⟩ := p
          rw [hr] at h
          rw [decodeField_ext ext hr]
          simp only [] at h ⊢
          cases hs : decodeFields fs B c1 with
          | none => rw [hs] at h; cases h
          | some q =>
              obtain ⟨ws, c'⟩ := q
              rw [hs] at h
              rw [decodeFields_ext ext hs]
              exact h
termination_by (sizeOf fs, 0)
decreasing_by all_goals (subst_vars; decreasing_tactic)

/-- A successful element decode is unaffected by appending bytes. -/
theorem decodeElems_ext {t : FType} {k : Nat} {B : List Nat} {c : Nat}
    {es : List Value} {c2 : Nat} (ext : List Nat)
    (h : decodeElems t k B c = some (es, c2)) :
    decodeElems t k (B ++ ext) c = some (es, c2) := by
  cases k with
  | zero =>
      simp only [decodeElems] at h ⊢
      exact h
  | succ k =>
      simp only [decodeElems] at h ⊢
      cases hr : decodeField t B c with
      | none => rw [hr] at h; cases h
      | some p =>
          obtain ⟨e, c1⟩ := p
          rw [hr] at h
          rw [decodeField_ext ext hr]
          simp only [] at h ⊢
          cases hs : decodeElems t k B c1 with
          | none => rw [hs] at h; cases h
          | some q =>
              obtain ⟨ws, c'⟩ := q
              rw [hs] at h
              rw [decodeElems_ext ext hs]
              exact h
termination_by (sizeOf t, k + 1)
decreasing_by all_goals (subst_vars; decreasing_tactic)

end

/-- C5: truncation rejection.  Deserializing any strict, nonempty
byte-level truncation of a valid encoding fails with the malformed-data
condition (EBADMSG); it never succeeds. -/
theorem claim_truncation_rejected (fs : List FType) (vs : List Value) (k : Nat)
    (h : ValidFields fs vs) (h1 : 1 ≤ k) (h2 : k < (serializeMsg fs vs).length) :
    deserializeMsg fs (some ((serializeMsg fs vs).take k)) = .error .EBADMSG := by
  have hlen := serializeMsg_length fs vs
  have htk : ((serializeMsg fs vs).take k).length = k := by
    rw [List.length_take]
    omega
  by_cases hk : k < 4
  · unfold deserializeMsg
    simp only []
    rw [if_neg (by omega), if_pos (by omega)]
  · have hsplit : (serializeMsg fs vs).take k =
        encapHeader ++ (encodeFields fs vs 0).take (k - 4) := by
      rw [serializeMsg_eq, List.take_append_eq_append_take]
      rw [List.take_of_length_le (show encapHeader.length ≤ k by simp [encapHeader]; omega)]
      simp [encapHeader]
    unfold deserializeMsg
    simp only []
    rw [if_neg (by omega), if_neg (by omega)]
    have hhdr : reprIdOk ((serializeMsg fs vs).take k) = true := by
      rw [hsplit]
      simp [reprIdOk, List.take_left' (show encapHeader.length = 4 from rfl)]
    rw [if_pos hhdr]
    have hdrop : ((serializeMsg fs vs).take k).drop 4 =
        (encodeFields fs vs 0).take (k - 4) := by
      rw [hsplit]
      exact List.drop_left' (show encapHeader.length = 4 from rfl)
    rw [hdrop]
    cases hd : decodeFields fs ((encodeFields fs vs 0).take (k - 4)) 0 with
    | none => rfl
    | some p =>
        exfalso
        obtain ⟨vs1, c1⟩ := p
        have hbound := decodeFields_bound hd (by omega)
        have hext := decodeFields_ext ((encodeFields fs vs 0).drop (k - 4)) hd
        rw [List.take_append_drop] at hext
        rw [decode_encode_payload h] at hext
        simp only [Option.some.injEq, Prod.mk.injEq] at hext
        have htlen : ((encodeFields fs vs 0).take (k - 4)).length = k - 4 := by
          rw [List.length_take]
          omega
        omega

/-- Witness for C5: a 7-byte truncation of a 12-byte Time encoding. -/
theorem claim_truncation_rejected_witness :
    1 ≤ 7 ∧ 7 < (serializeMsg timeFields [.prim 3, .prim 4]).length ∧
      deserializeMsg timeFields
          (some ((serializeMsg timeFields [.prim 3, .prim 4]).take 7)) =
        .error .EBADMSG := by
  have hv : ValidFields timeFields [.prim 3, .prim 4] :=
    ValidFields.cons (Valid.prim (by norm_num) (by norm_num))
      (ValidFields.cons (Valid.prim (by norm_num) (by norm_num)) ValidFields.nil)
  have hlen : (serializeMsg timeFields [.prim 3, .prim 4]).length = 12 := by
    simp [serializeMsg, timeFields, encodeFields, encodeField, encPrim, alignPad,
      leBytes, encapHeader]
  refine ⟨by norm_num, by omega, ?_⟩
  exact claim_truncation_rejected timeFields [.prim 3, .prim 4] 7 hv (by norm_num)
    (by omega)

/-- C4: argument and header validation.  For every message type, a NULL
buffer or zero length fails with EINVAL; a nonempty buffer shorter than
4 bytes fails with EBADMSG; an unrecognized representation identifier in
the first two bytes fails with EBADMSG; in particular four 0xFF bytes
are rejected as malformed. -/
theorem claim_deserialize_errors (fs : List FType) :
    deserializeMsg fs none = .error .EINVAL ∧
      deserializeMsg fs (some []) = .error .EINVAL ∧
      (∀ B : List Nat, B.length ≠ 0 → B.length < 4 →
        deserializeMsg fs (some B) = .error .EBADMSG) ∧
      (∀ B : List Nat, 4 ≤ B.length → B.take 2 ≠ [0x00, 0x01] →
        deserializeMsg fs (some B) = .error .EBADMSG) ∧
      deserializeMsg fs (some [0xFF, 0xFF, 0xFF, 0xFF]) = .error .EBADMSG := by
  refine ⟨rfl, rfl, ?_, ?_, ?_⟩
  · intro B h0 h4
    unfold deserializeMsg
    simp only []
    rw [if_neg h0, if_pos h4]
  · intro B h4 hh
    unfold deserializeMsg
    simp only []
    rw [if_neg (by omega), if_neg (by omega)]
    rw [if_neg ?_]
    simp only [reprIdOk, beq_iff_eq]
    intro habs
    apply hh
    have : B.take 2 = (B.take 4).take 2 := by
      rw [List.take_take]
      norm_num
    rw [this, habs]
    rfl
  · unfold deserializeMsg
    simp only []
    rw [if_neg (by simp), if_neg (by simp)]
    rw [if_neg (by simp [reprIdOk, encapHeader])]

/-- Witness for C4: a 2-byte buffer and a 32-byte buffer with a bad
representation identifier, both rejected for the Time schema. -/
theorem claim_deserialize_errors_witness :
    deserializeMsg timeFields (some [0xAB, 0xCD]) = .error .EBADMSG ∧
      deserializeMsg timeFields
          (some [0x12, 0x34, 0x56, 0x78, 0, 0, 0, 0]) = .error .EBADMSG := by
  have h := claim_deserialize_errors timeFields
  exact ⟨h.2.2.1 [0xAB, 0xCD] (by norm_num) (by norm_num),
    h.2.2.2.1 [0x12, 0x34, 0x56, 0x78, 0, 0, 0, 0] (by norm_num) (by decide)⟩

/-- C6: concrete Time scenario.  Serializing sec = 42,
nanosec = 999999999 yields exactly 12 bytes: the 4-byte encapsulation
header, then 42 and 999999999 as 4-byte little-endian integers; those 12
bytes deserialize back to the same value. -/
theorem claim_time_concrete :
    ros_time_serialize ⟨42, 999999999⟩ =
        [0x00, 0x01, 0x00, 0x00, 42, 0, 0, 0, 0xFF, 0xC9, 0x9A, 0x3B] ∧
      (ros_time_serialize ⟨42, 999999999⟩).length = 12 ∧
      ros_time_deserialize
          (some [0x00, 0x01, 0x00, 0x00, 42, 0, 0, 0, 0xFF, 0xC9, 0x9A, 0x3B]) =
        .ok ⟨42, 999999999⟩ := by
  refine ⟨?_, ?_, ?_⟩
  · simp [ros_time_serialize, RosTime.toValues, serializeMsg, timeFields,
      encodeFields, encodeField, encPrim, alignPad, leBytes, encapHeader]
  · simp [ros_time_serialize, RosTime.toValues, serializeMsg, timeFields,
      encodeFields, encodeField, encPrim, alignPad, leBytes, encapHeader]
  · simp [ros_time_deserialize, deserializeMsg, reprIdOk, encapHeader, timeFields,
      decodeFields, decodeField, readPrim, alignPad, leVal]

/-- Writing an empty element list emits nothing. -/
theorem encodeElems_nil (t : FType) (c : Nat) : encodeElems t [] c = [] := by
  simp [encodeElems]

/-- Witness for C3: the empty CompressedVideo against a 4-byte buffer. -/
theorem claim_sized_too_small_witness :
    ([0, 0, 0, 0] : List Nat).length <
        (serializeMsg compressedVideoFields
          foxglove_compressed_video_new.toValues).length ∧
      (serializeSized compressedVideoFields foxglove_compressed_video_new.toValues
          (some [0, 0, 0, 0])).err = some .ENOBUFS := by
  have hlen : (serializeMsg compressedVideoFields
      foxglove_compressed_video_new.toValues).length = 29 := by
    simp [serializeMsg, compressedVideoFields, headerFields, timeFields,
      foxglove_compressed_video_new, FoxgloveCompressedVideo.toValues,
      RosHeader.toValues, RosTime.toValues, ros_header_new, ros_time_new,
      encodeFields, encodeField, encodeElems_nil, encPrim, alignPad, leBytes,
      encapHeader]
  have h := claim_sized_too_small compressedVideoFields
    foxglove_compressed_video_new.toValues [0, 0, 0, 0] (by rw [hlen]; norm_num)
  exact ⟨by rw [hlen]; norm_num, h.2.1⟩

/-- Counterexample for C7: the claim says the stamp occupies 12 bytes
after the encapsulation header, which would make the "camera" Header
encoding 4 + 12 + 4 + 7 = 27 bytes long; the encoding is actually 23
bytes, because a nested Time field is written without its own
encapsulation header (8 bytes only). -/
theorem claim_header_camera_cex :
    (ros_header_serialize ⟨⟨42, 999⟩, [99, 97, 109, 101, 114, 97]⟩).length =
        23 ∧
      (ros_header_serialize ⟨⟨42, 999⟩, [99, 97, 109, 101, 114, 97]⟩).length ≠
        4 + 12 + 4 + 7 := by
  have h : (ros_header_serialize ⟨⟨42, 999⟩, [99, 97, 109, 101, 114, 97]⟩).length
      = 23 := by
    simp [ros_header_serialize, RosHeader.toValues, RosTime.toValues, serializeMsg,
      headerFields, timeFields, encodeFields, encodeField, encPrim, alignPad,
      leBytes, encapHeader]
  exact ⟨h, by omega⟩

/-- C7 (amended): serializing a Header with frame_id "camera" and stamp
sec = 42, nanosec = 999 produces, after the 4-byte encapsulation header,
the 8 bytes of the nested stamp (sec then nanosec, no nested
encapsulation header), then the string length 7 (content plus the
mandatory trailing NUL) as a 4-byte little-endian unsigned integer, then
the 7 bytes of "camera" plus NUL, with no padding after the NUL. -/
theorem claim_header_camera_amended :
    ros_header_serialize ⟨⟨42, 999⟩, [99, 97, 109, 101, 114, 97]⟩ =
        [0x00, 0x01, 0x00, 0x00] ++
          ([42, 0, 0, 0] ++ [0xE7, 0x03, 0, 0]) ++
            ([7, 0, 0, 0] ++ [99, 97, 109, 101, 114, 97, 0]) ∧
      (ros_header_serialize ⟨⟨42, 999⟩, [99, 97, 109, 101, 114, 97]⟩).length =
        4 + 8 + 4 + 7 := by
  refine ⟨?_, ?_⟩ <;>
    simp [ros_header_serialize, RosHeader.toValues, RosTime.toValues, serializeMsg,
      headerFields, timeFields, encodeFields, encodeField, encPrim, alignPad,
      leBytes, encapHeader]

/-- Counterexample for C8: the claim says every numeric field of a
`_new()` value is zero, but the constructors follow the ROS2 schema
defaults asserted by the repository tests: PointField.count defaults to
1, ColorRGBA.a defaults to 1.0 (bit pattern 0x3F800000) and
NavSatStatus.status defaults to STATUS_NO_FIX (-1). -/
theorem claim_new_zero_cex :
    ros_point_field_new.count = 1 ∧ ros_point_field_new.count ≠ 0 ∧
      ros_color_rgba_new.a = 0x3F800000 ∧ ros_color_rgba_new.a ≠ 0 ∧
      ros_nav_sat_status_new.status = -1 ∧ ros_nav_sat_status_new.status ≠ 0 := by
  refine ⟨rfl, by norm_num [ros_point_field_new], rfl,
    by norm_num [ros_color_rgba_new], rfl,
    by norm_num [ros_nav_sat_status_new]⟩

/-- C8 (amended): every `_new()` constructor yields the schema-default
value — numeric fields zero, string fields empty, sequence fields
empty — except for fields whose ROS2 schema declares a non-zero
default; the non-zero defaults exercised by the repository's tests are
ColorRGBA.a = 1.0, PointField.count = 1 and
NavSatStatus.status = STATUS_NO_FIX (-1). -/
theorem claim_new_defaults :
    ros_time_new.sec = 0 ∧ ros_time_new.nanosec = 0 ∧
      ros_header_new.stamp = ⟨0, 0⟩ ∧ ros_header_new.frame_id = [] ∧
      foxglove_compressed_video_new.header = ⟨⟨0, 0⟩, []⟩ ∧
      foxglove_compressed_video_new.data = [] ∧
      foxglove_compressed_video_new.format = [] ∧
      ros_color_rgba_new.r = 0 ∧ ros_color_rgba_new.g = 0 ∧
      ros_color_rgba_new.b = 0 ∧ ros_color_rgba_new.a = 0x3F800000 ∧
      ros_point_field_new.name = [] ∧ ros_point_field_new.offset = 0 ∧
      ros_point_field_new.datatype = 0 ∧ ros_point_field_new.count = 1 ∧
      ros_nav_sat_status_new.status = -1 ∧ ros_nav_sat_status_new.service = 0 := by
  exact ⟨rfl, rfl, rfl, rfl, rfl, rfl, rfl, rfl, rfl, rfl, rfl, rfl, rfl, rfl, rfl,
    rfl, rfl⟩
